import Mathlib

/-!
Verification of the log-scanning core of `src/screens/log_analytics_screen.py`
(`LogAnalyzerThread` and `LogAnalyticsScreen`).  Text is modelled as
`List Char`; Python's per-thread mutable state (`buffer`, `line_number`,
`results`, the cooperative `_running` flag) is threaded explicitly.
-/

namespace LogScan

/-- Last element of a list, with a default: model of Python `lines[-1]`
on the (always nonempty) result of `split('\n')`. -/
def lastD {α : Type} : List α → α → α
  | [], d => d
  | a :: rest, _ => lastD rest a

@[simp] theorem lastD_nil {α : Type} (d : α) : lastD [] d = d := rfl

@[simp] theorem lastD_cons {α : Type} (a : α) (l : List α) (d : α) :
    lastD (a :: l) d = lastD l a := rfl

theorem lastD_append {α : Type} (A : List α) (b : α) (B : List α) (d : α) :
    lastD (A ++ b :: B) d = lastD (b :: B) d := by
  induction A generalizing d with
  | nil => rfl
  | cons a A ih => simp only [List.cons_append, lastD_cons]; exact ih a

/-- Model of Python `buffer.split('\n')` on `List Char`: `splitNl [] = [[]]`,
and every `'\n'` terminates the current fragment and starts a new one. -/
def splitNl : List Char → List (List Char)
  | [] => [[]]
  | c :: rest =>
    if c = '\n' then [] :: splitNl rest
    else
      match splitNl rest with
      | [] => [[c]]
      | h :: t => (c :: h) :: t

theorem splitNl_nil : splitNl [] = [[]] := rfl

theorem splitNl_newline (rest : List Char) :
    splitNl ('\n' :: rest) = [] :: splitNl rest := by
  rw [splitNl]
  simp

theorem splitNl_cons_ne (c : Char) (rest : List Char) (h : c ≠ '\n')
    (h1 : List Char) (t : List (List Char)) (hs : splitNl rest = h1 :: t) :
    splitNl (c :: rest) = (c :: h1) :: t := by
  rw [splitNl, if_neg h, hs]

theorem splitNl_ne_nil (l : List Char) : splitNl l ≠ [] := by
  induction l with
  | nil => simp [splitNl_nil]
  | cons c rest ih =>
    by_cases h : c = '\n'
    · subst h; rw [splitNl_newline]; simp
    · rcases hs : splitNl rest with _ | ⟨h1, t⟩
      · exact absurd hs ih
      · rw [splitNl_cons_ne c rest h h1 t hs]; simp

/-- No fragment produced by `splitNl` contains a newline; in particular the
final fragment (the carry `buffer = lines[-1]`) does not. -/
theorem splitNl_lastD_no_newline (l : List Char) :
    '\n' ∉ lastD (splitNl l) [] := by
  induction l with
  | nil => simp [splitNl_nil]
  | cons c rest ih =>
    by_cases h : c = '\n'
    · subst h
      rw [splitNl_newline, lastD_cons]
      exact ih
    · rcases hs : splitNl rest with _ | ⟨h1, t⟩
      · exact absurd hs (splitNl_ne_nil rest)
      · rw [splitNl_cons_ne c rest h h1 t hs]
        rw [hs] at ih
        cases t with
        | nil =>
          rw [lastD_cons, lastD_nil]
          rw [lastD_cons, lastD_nil] at ih
          simp only [List.mem_cons, not_or]
          exact ⟨fun hh => h hh.symm, ih⟩
        | cons t1 ts =>
          rw [lastD_cons, lastD_cons]
          rw [lastD_cons, lastD_cons] at ih
          exact ih

/-- A newline-free text splits to a single fragment. -/
theorem splitNl_no_newline (p : List Char) (hp : '\n' ∉ p) : splitNl p = [p] := by
  induction p with
  | nil => rfl
  | cons c rest ih =>
    have hc : c ≠ '\n' := fun hh => hp (by simp [hh])
    have hr : splitNl rest = [rest] := ih (fun hh => hp (List.mem_cons_of_mem _ hh))
    rw [splitNl_cons_ne c rest hc rest [] hr]

/-- Key decomposition: splitting `u ++ v` yields the complete fragments of
`u` followed by the split of `u`'s carry glued onto `v`.  This is the whole
reason the chunked loop in `_analyze_file` reassembles lines correctly. -/
theorem splitNl_append (u v : List Char) :
    splitNl (u ++ v) = (splitNl u).dropLast ++ splitNl (lastD (splitNl u) [] ++ v) := by
  induction u with
  | nil => simp [splitNl_nil]
  | cons c rest ih =>
    by_cases h : c = '\n'
    · subst h
      rcases hs : splitNl rest with _ | ⟨h1, t⟩
      · exact absurd hs (splitNl_ne_nil rest)
      · rw [List.cons_append, splitNl_newline, splitNl_newline, ih, hs]
        simp [List.dropLast_cons₂]
    · rcases hs : splitNl rest with _ | ⟨h1, t⟩
      · exact absurd hs (splitNl_ne_nil rest)
      · cases t with
        | nil =>
          have hiv : splitNl (rest ++ v) = splitNl (h1 ++ v) := by
            rw [ih, hs]; simp
          rcases hsv : splitNl (h1 ++ v) with _ | ⟨s1, st⟩
          · exact absurd hsv (splitNl_ne_nil _)
          · rw [List.cons_append,
              splitNl_cons_ne c (rest ++ v) h s1 st (hiv.trans hsv),
              splitNl_cons_ne c rest h h1 [] hs]
            simp only [List.dropLast_single, List.nil_append, lastD_cons, lastD_nil]
            rw [List.cons_append, splitNl_cons_ne c (h1 ++ v) h s1 st hsv]
        | cons t1 ts =>
          have hiv : splitNl (rest ++ v) =
              h1 :: ((t1 :: ts).dropLast ++ splitNl (lastD ts t1 ++ v)) := by
            rw [ih, hs]
            simp [List.dropLast_cons₂]
          rw [List.cons_append,
            splitNl_cons_ne c (rest ++ v) h _ _ hiv,
            splitNl_cons_ne c rest h h1 (t1 :: ts) hs]
          simp [List.dropLast_cons₂]

/-- Chunking with explicit fuel (`fuel ≥ length` makes it total and
structural, so concrete runs reduce in the kernel). -/
def chunksGo (k : Nat) : Nat → List Char → List (List Char)
  | _, [] => []
  | 0, _ :: _ => []
  | fuel + 1, c :: rest => (c :: rest.take (k - 1)) :: chunksGo k fuel (rest.drop (k - 1))

/-- Model of the successive `f.read(chunk_size)` results for a file whose
text is `l`: the chunks of size `k` (for `k ≥ 1`), in order. -/
def chunksOf (k : Nat) (l : List Char) : List (List Char) := chunksGo k l.length l

theorem chunksGo_congr (k : Nat) :
    ∀ f1 f2 (l : List Char), l.length ≤ f1 → l.length ≤ f2 →
      chunksGo k f1 l = chunksGo k f2 l := by
  intro f1
  induction f1 with
  | zero =>
    intro f2 l h1 _
    rw [List.length_eq_zero.mp (Nat.le_zero.mp h1)]
    cases f2 <;> rfl
  | succ f1 ih =>
    intro f2 l h1 h2
    cases l with
    | nil => cases f2 <;> rfl
    | cons c rest =>
      cases f2 with
      | zero => exact absurd h2 (by simp)
      | succ f2 =>
        simp only [chunksGo]
        congr 1
        apply ih
        · calc (rest.drop (k - 1)).length ≤ rest.length := by
                simp [List.length_drop]
             _ ≤ f1 := Nat.le_of_succ_le_succ h1
        · calc (rest.drop (k - 1)).length ≤ rest.length := by
                simp [List.length_drop]
             _ ≤ f2 := Nat.le_of_succ_le_succ h2

theorem chunksOf_nil (k : Nat) : chunksOf k [] = [] := rfl

theorem chunksOf_cons (k : Nat) (c : Char) (rest : List Char) :
    chunksOf k (c :: rest) =
      (c :: rest.take (k - 1)) :: chunksOf k (rest.drop (k - 1)) := by
  show chunksGo k (rest.length + 1) (c :: rest) = _
  simp only [chunksGo]
  congr 1
  exact chunksGo_congr k rest.length _ _ (by simp [List.length_drop]) (le_refl _)

/-- Reading all chunks back-to-back reproduces the file text. -/
theorem flatten_chunksOf (k : Nat) (l : List Char) : (chunksOf k l).flatten = l := by
  have main : ∀ n (l : List Char), l.length ≤ n → (chunksOf k l).flatten = l := by
    intro n
    induction n with
    | zero => intro l h; rw [List.length_eq_zero.mp (Nat.le_zero.mp h)]; rfl
    | succ n ih =>
      intro l h
      cases l with
      | nil => rfl
      | cons c rest =>
        rw [chunksOf_cons, List.flatten_cons]
        rw [ih (rest.drop (k - 1))
          (le_trans (by simp [List.length_drop]) (Nat.le_of_succ_le_succ h))]
        simp [List.take_append_drop]
  exact main l.length l (le_refl _)

/-- Sequential numbering of emitted lines, continuing from `n`: model of the
`line_number += 1` performed before each line is examined. -/
def numberLines (n : Nat) : List (List Char) → List (Nat × List Char)
  | [] => []
  | l :: rest => (n + 1, l) :: numberLines (n + 1) rest

@[simp] theorem numberLines_nil (n : Nat) : numberLines n [] = [] := rfl

@[simp] theorem numberLines_cons (n : Nat) (l : List Char) (rest : List (List Char)) :
    numberLines n (l :: rest) = (n + 1, l) :: numberLines (n + 1) rest := rfl

theorem numberLines_append (n : Nat) (A B : List (List Char)) :
    numberLines n (A ++ B) = numberLines n A ++ numberLines (n + A.length) B := by
  induction A generalizing n with
  | nil => simp
  | cons a A ih =>
    have e : n + 1 + A.length = n + (A.length + 1) := by omega
    simp [ih, e]

theorem map_snd_numberLines (n : Nat) (ls : List (List Char)) :
    (numberLines n ls).map Prod.snd = ls := by
  induction ls generalizing n with
  | nil => rfl
  | cons l rest ih => simp [ih]

theorem length_numberLines (n : Nat) (ls : List (List Char)) :
    (numberLines n ls).length = ls.length := by
  induction ls generalizing n with
  | nil => rfl
  | cons l rest ih => simp [ih]

theorem map_fst_numberLines (n : Nat) (ls : List (List Char)) :
    (numberLines n ls).map Prod.fst = List.range' (n + 1) ls.length := by
  induction ls generalizing n with
  | nil => rfl
  | cons l rest ih => simp [List.range'_succ, ih]

/-- Splitting the whole text on newlines directly, with the empty fragment
that follows a trailing newline dropped (it is emitted by neither side). -/
def directLines (s : List Char) : List (List Char) :=
  if lastD (splitNl s) [] = [] then (splitNl s).dropLast else splitNl s

theorem directLines_append_carry (u v : List Char) :
    directLines (u ++ v) =
      (splitNl u).dropLast ++ directLines (lastD (splitNl u) [] ++ v) := by
  unfold directLines
  rw [splitNl_append u v]
  rcases hS : splitNl (lastD (splitNl u) [] ++ v) with _ | ⟨s1, st⟩
  · exact absurd hS (splitNl_ne_nil _)
  · rw [lastD_append _ s1 st]
    by_cases he : lastD (s1 :: st) [] = []
    · simp [he, List.dropLast_append_of_ne_nil]
    · rw [if_neg he, if_neg he]

/-- The line-assembly loop of `_analyze_file` (lines 99–127 of
`log_analytics_screen.py`) with the cancellation flag held true and the
match test stripped out: feed each chunk, split `buffer + chunk` on
newlines, emit the complete lines with sequential numbers, keep
`lines[-1]` as the new carry, and at end of stream flush a non-empty
carry as one final numbered line. -/
def asmLoop : List (List Char) → List Char → Nat → List (Nat × List Char)
  | [], buf, n => if buf = [] then [] else [(n + 1, buf)]
  | c :: rest, buf, n =>
    numberLines n (splitNl (buf ++ c)).dropLast ++
      asmLoop rest (lastD (splitNl (buf ++ c)) [])
        (n + (splitNl (buf ++ c)).dropLast.length)

/-- The numbered lines the scanner emits for a file of text `s`, read in
chunks of size `k`. -/
def scanLines (k : Nat) (s : List Char) : List (Nat × List Char) :=
  asmLoop (chunksOf k s) [] 0

theorem asmLoop_spec :
    ∀ (chunks : List (List Char)) (buf : List Char) (n : Nat),
      '\n' ∉ buf →
      asmLoop chunks buf n = numberLines n (directLines (buf ++ chunks.flatten)) := by
  intro chunks
  induction chunks with
  | nil =>
    intro buf n hb
    have hs := splitNl_no_newline buf hb
    simp only [asmLoop, List.flatten_nil, List.append_nil]
    unfold directLines
    rw [hs]
    by_cases he : buf = []
    · subst he; simp
    · rw [lastD_cons, lastD_nil, if_neg he, if_neg he]
      rfl
  | cons c rest ih =>
    intro buf n _
    have hnl : '\n' ∉ lastD (splitNl (buf ++ c)) [] := splitNl_lastD_no_newline _
    simp only [asmLoop]
    rw [ih _ _ hnl, List.flatten_cons, ← List.append_assoc,
      directLines_append_carry (buf ++ c) rest.flatten, numberLines_append]

theorem scanLines_eq (k : Nat) (s : List Char) :
    scanLines k s = numberLines 0 (directLines s) := by
  unfold scanLines
  rw [asmLoop_spec _ _ _ (by simp), flatten_chunksOf, List.nil_append]

/-- C1: for every input text and every chunk size of at least 1, reading the
text chunkwise through the carry-buffer loop of `_analyze_file` (splitting
on `'\n'`, emitting complete lines, keeping `lines[-1]` as the carry, and
flushing the final non-empty carry at end of stream) yields exactly the
same ordered sequence of lines as splitting the whole text on `'\n'`
directly, with the trailing empty fragment after a final newline emitted by
neither side; no character is duplicated or dropped at chunk boundaries. -/
theorem chunked_scan_eq_direct (k : Nat) (s : List Char) (hk : 1 ≤ k) :
    (scanLines k s).map Prod.snd = directLines s := by
  rw [scanLines_eq, map_snd_numberLines]

theorem chunked_scan_eq_direct_witness :
    1 ≤ 2 ∧ (scanLines 2 ("ab\ncd".toList)).map Prod.snd = directLines ("ab\ncd".toList) :=
  ⟨by decide, chunked_scan_eq_direct 2 _ (by decide)⟩

/-- C4: for every file and chunk size of at least 1, the line numbers the
scan assigns are exactly `1, 2, …, n` in emission order, with no gaps and
no repeats, including when the final line is produced by the end-of-stream
flush because the text lacks a trailing newline. -/
theorem line_numbers_sequential (k : Nat) (s : List Char) (hk : 1 ≤ k) :
    (scanLines k s).map Prod.fst = List.range' 1 (scanLines k s).length := by
  rw [scanLines_eq, map_fst_numberLines, length_numberLines]

theorem line_numbers_sequential_witness :
    1 ≤ 1 ∧ (scanLines 1 ("a\nbc".toList)).map Prod.fst =
      List.range' 1 (scanLines 1 ("a\nbc".toList)).length :=
  ⟨by decide, line_numbers_sequential 1 _ (by decide)⟩

/-- Model of Python `str.lower()` (on the ASCII range, which is all the
source's examples exercise). -/
def lowerL (s : List Char) : List Char := s.map Char.toLower

/-- Prefix test: does `s` start with `p`? -/
def startsWithL : List Char → List Char → Bool
  | [], _ => true
  | _ :: _, [] => false
  | p :: ps, c :: cs => p == c && startsWithL ps cs

/-- Model of Python `p in s` (substring containment): some tail of `s`
starts with `p`. -/
def containsL : List Char → List Char → Bool
  | [], p => p.isEmpty
  | c :: rest, p => startsWithL p (c :: rest) || containsL rest p

theorem startsWithL_iff (p s : List Char) :
    startsWithL p s = true ↔ ∃ v, s = p ++ v := by
  induction p generalizing s with
  | nil => simpa [startsWithL] using ⟨s, rfl⟩
  | cons a ps ih =>
    cases s with
    | nil => simp [startsWithL]
    | cons c cs =>
      simp only [startsWithL, Bool.and_eq_true, beq_iff_eq, ih, List.cons_append]
      constructor
      · rintro ⟨rfl, v, rfl⟩; exact ⟨v, rfl⟩
      · rintro ⟨v, hv⟩
        injection hv with h1 h2
        exact ⟨h1.symm, v, h2⟩

theorem containsL_iff (s p : List Char) :
    containsL s p = true ↔ ∃ u v, s = u ++ p ++ v := by
  induction s with
  | nil =>
    simp only [containsL, List.isEmpty_iff]
    constructor
    · rintro rfl; exact ⟨[], [], rfl⟩
    · rintro ⟨u, v, huv⟩
      rcases List.append_eq_nil.mp ((List.append_assoc u p v ▸ huv).symm) with ⟨h1, h2⟩
      exact (List.append_eq_nil.mp h2).1
  | cons c rest ih =>
    simp only [containsL, Bool.or_eq_true, startsWithL_iff, ih]
    constructor
    · rintro (⟨v, hv⟩ | ⟨u, v, huv⟩)
      · exact ⟨[], v, by simp [hv]⟩
      · exact ⟨c :: u, v, by simp [huv]⟩
    · rintro ⟨u, v, huv⟩
      cases u with
      | nil => exact Or.inl ⟨v, by simpa using huv⟩
      | cons u1 us =>
        injection huv with h1 h2
        exact Or.inr ⟨us, v, h2⟩

/-- The two pattern kinds of the scanner.  `regex f` carries the abstract
search function of a successfully compiled pattern: `f line = true` iff
`regex.search(line)` finds a match somewhere in the line. -/
inductive Matcher : Type
  | literal (text : List Char)
  | regex (search : List Char → Bool)

/-- The per-line match test of `_analyze_file` (lines 113–121 of
`log_analytics_screen.py`): `regex.search(line)` in regex mode,
`self.pattern.lower() in line.lower()` in literal mode. -/
def matchesM : Matcher → List Char → Bool
  | .literal p, line => containsL (lowerL line) (lowerL p)
  | .regex f, line => f line

/-- C5: a `Literal(text)` matcher matches a line exactly when the
lower-cased pattern text occurs as a contiguous substring of the
lower-cased line (case-insensitive containment), and a `Regex` matcher
matches exactly when the compiled pattern's search function reports a
match anywhere in the line (a search, not a full-line match); in
particular `Literal("error")` matches `"An ERROR occurred"`. -/
theorem matcher_semantics :
    (∀ (p line : List Char),
      matchesM (.literal p) line = true ↔
        ∃ u v, lowerL line = u ++ lowerL p ++ v) ∧
    (∀ (f : List Char → Bool) (line : List Char),
      matchesM (.regex f) line = f line) ∧
    matchesM (.literal ("error".toList)) ("An ERROR occurred".toList) = true :=
  ⟨fun p line => containsL_iff (lowerL line) (lowerL p),
   fun _ _ => rfl,
   by decide⟩

/-- Model of the f-string record `f"{line_number}: {line}"`. -/
def fmtRec (n : Nat) (line : List Char) : List Char :=
  (toString n).toList ++ ':' :: ' ' :: line

/-- The mutable loop state of `_analyze_file`, plus a count of how many
times the `_running` flag has been read since the job started (used to
model the moment at which an external `stop()` becomes visible). -/
structure ScanSt : Type where
  lineNo : Nat
  results : List (List Char)
  reads : Nat
deriving Repr, DecidableEq

/-- Model of reading `self._running`: `stopAt = some t` means `stop()`
makes the flag `False` from the `t`-th read (0-based) onwards; `none`
means `stop()` is never called. -/
def isRunning (stopAt : Option Nat) (reads : Nat) : Bool :=
  match stopAt with
  | none => true
  | some t => reads < t

/-- One line examined inside the chunk loop: `line_number += 1`, then the
match test conditionally appends `f"{line_number}: {line}"`. -/
def stepLine (m : Matcher) (st : ScanSt) (line : List Char) : ScanSt :=
  { st with
      lineNo := st.lineNo + 1,
      results := st.results ++
        (if matchesM m line then [fmtRec (st.lineNo + 1) line] else []) }

/-- The `while self._running:` chunk loop of `_analyze_file` (lines
99–121).  `chunks` is the remaining sequence of successful
`f.read(chunk_size)` results; when it is exhausted the next read returns
`""` (breaking the loop) if `eofRaises` is false, and raises an I/O error
(the unreadable-file case) if it is true.  Returns the final carry
buffer, the final state, and whether the loop ended in an exception. -/
def chunkLoop (m : Matcher) (stopAt : Option Nat) (eofRaises : Bool) :
    List (List Char) → List Char → ScanSt → List Char × ScanSt × Bool
  | chunks, buf, st =>
    if isRunning stopAt st.reads then
      match chunks with
      | [] => (buf, { st with reads := st.reads + 1 }, eofRaises)
      | c :: rest =>
        chunkLoop m stopAt eofRaises rest (lastD (splitNl (buf ++ c)) [])
          ((splitNl (buf ++ c)).dropLast.foldl (stepLine m)
            { st with reads := st.reads + 1 })
    else (buf, { st with reads := st.reads + 1 }, false)

/-- The post-loop flush of `_analyze_file` (lines 117–127):
`if buffer and self._running:` process the carry as one final line.
Python's `and` short-circuits, so the flag is read only when the carry is
non-empty. -/
def flushStep (m : Matcher) (stopAt : Option Nat) (buf : List Char)
    (st : ScanSt) : ScanSt :=
  if buf ≠ [] then
    if isRunning stopAt st.reads then
      stepLine m { st with reads := st.reads + 1 } buf
    else { st with reads := st.reads + 1 }
  else st

/-- A file as the scan sees it: a readable file with the given text, or a
file whose reads yield the given chunks and then raise an I/O error (a
file that cannot even be opened is `errAfter []`). -/
inductive LogFile : Type
  | ok (text : List Char)
  | errAfter (chunks : List (List Char))

/-- Model of `LogAnalyzerThread._analyze_file` (lines 76–134): matcher
construction, chunk loop, flush, and the per-file `except` that swallows
any error and returns the results accumulated so far.  `cm` is the
outcome of the construction step: `none` models `re.compile(self.pattern)`
raising on a non-compiling pattern (the `except` then yields the empty
result list, before any read), `some m` a successfully built matcher.
`k` is the chunk size (`chunk_size = 1024 * 1024` in the source; kept as
a parameter so chunk-boundary placement can be exercised).  Returns the
file's match records and the updated count of `_running` reads. -/
def analyzeFile (k : Nat) (cm : Option Matcher) (stopAt : Option Nat)
    (reads0 : Nat) (file : LogFile) : List (List Char) × Nat :=
  match cm with
  | none => ([], reads0)
  | some m =>
    match file with
    | .ok s =>
      let r := chunkLoop m stopAt false (chunksOf k s) [] ⟨0, [], reads0⟩
      let st := flushStep m stopAt r.1 r.2.1
      (st.results, st.reads)
    | .errAfter cs =>
      let r := chunkLoop m stopAt true cs [] ⟨0, [], reads0⟩
      if r.2.2 then (r.2.1.results, r.2.1.reads)
      else
        let st := flushStep m stopAt r.1 r.2.1
        (st.results, st.reads)

/-- Terminal emission of `LogAnalyzerThread.run`: the `finished` signal
with the accumulated results on the normal path (line 67), or — if an
exception escaped the inner handlers — only an error progress message
with no `finished` emission (lines 69–71). -/
inductive Outcome : Type
  | finished (results : List (List Char))
  | errorOnly
deriving Repr, DecidableEq

/-- The directory branch of `run` (lines 54–64): for each globbed file,
check the flag (`if not self._running: break`), scan it, extend
`results`. -/
def dirLoop (k : Nat) (cm : Option Matcher) (stopAt : Option Nat) :
    List LogFile → List (List Char) → Nat → List (List Char) × Nat
  | [], acc, reads => (acc, reads)
  | f :: rest, acc, reads =>
    if isRunning stopAt reads then
      let r := analyzeFile k cm stopAt (reads + 1) f
      dirLoop k cm stopAt rest (acc ++ r.1) r.2
    else (acc, reads + 1)

/-- What `run` is asked to scan: a single file, or the file list a
directory's glob produced. -/
inductive RunInput : Type
  | file (f : LogFile)
  | dir (files : List LogFile)

/-- Model of `LogAnalyzerThread.run` (lines 49–74): scan the input, then emit
`finished(results)`. -/
def runThread (k : Nat) (cm : Option Matcher) (stopAt : Option Nat) :
    RunInput → Outcome
  | .file f => .finished (analyzeFile k cm stopAt 0 f).1
  | .dir files => .finished (dirLoop k cm stopAt files [] 0).1

/-- The formatted match records for lines numbered from `n + 1`. -/
def recsFrom (m : Matcher) (n : Nat) (ls : List (List Char)) : List (List Char) :=
  (numberLines n ls).filterMap
    (fun p => if matchesM m p.2 then some (fmtRec p.1 p.2) else none)

@[simp] theorem recsFrom_nil (m : Matcher) (n : Nat) : recsFrom m n [] = [] := rfl

theorem recsFrom_cons (m : Matcher) (n : Nat) (l : List Char) (rest : List (List Char)) :
    recsFrom m n (l :: rest) =
      (if matchesM m l then [fmtRec (n + 1) l] else []) ++ recsFrom m (n + 1) rest := by
  simp only [recsFrom, numberLines_cons, List.filterMap_cons]
  cases h : matchesM m l <;> simp [h]

theorem recsFrom_append (m : Matcher) (n : Nat) (A B : List (List Char)) :
    recsFrom m n (A ++ B) = recsFrom m n A ++ recsFrom m (n + A.length) B := by
  simp [recsFrom, numberLines_append, List.filterMap_append]

theorem foldl_stepLine (m : Matcher) (ls : List (List Char)) :
    ∀ (ln : Nat) (res : List (List Char)) (r : Nat),
      ls.foldl (stepLine m) ⟨ln, res, r⟩ =
        ⟨ln + ls.length, res ++ recsFrom m ln ls, r⟩ := by
  induction ls with
  | nil => intro ln res r; simp
  | cons l rest ih =>
    intro ln res r
    have hstep : stepLine m ⟨ln, res, r⟩ l =
        ⟨ln + 1, res ++ (if matchesM m l then [fmtRec (ln + 1) l] else []), r⟩ := rfl
    rw [List.foldl_cons, hstep, ih, recsFrom_cons, List.length_cons]
    congr 1
    · omega
    · rw [List.append_assoc]

/-- Splitting after appending one chunk: the already-complete fragments of
`u` stay complete, and the rest is the split of the carry glued to `F`. -/
theorem splitNl_chunk_dropLast (u F : List Char) :
    (splitNl (u ++ F)).dropLast =
      (splitNl u).dropLast ++ (splitNl (lastD (splitNl u) [] ++ F)).dropLast := by
  rw [splitNl_append u F]
  exact List.dropLast_append_of_ne_nil _ (splitNl_ne_nil _)

theorem splitNl_chunk_lastD (u F : List Char) :
    lastD (splitNl (u ++ F)) [] = lastD (splitNl (lastD (splitNl u) [] ++ F)) [] := by
  rw [splitNl_append u F]
  rcases hS : splitNl (lastD (splitNl u) [] ++ F) with _ | ⟨s1, st⟩
  · exact absurd hS (splitNl_ne_nil _)
  · rw [lastD_append]

theorem dropLast_append_lastD {α : Type} (l : List α) (h : l ≠ []) (d : α) :
    l.dropLast ++ [lastD l d] = l := by
  induction l generalizing d with
  | nil => exact absurd rfl h
  | cons a m ih =>
    cases m with
    | nil => rfl
    | cons b m' =>
      rw [List.dropLast_cons₂, lastD_cons, List.cons_append, ih (by simp) a]

/-- A run of the chunk loop that is never told to stop: it consumes every
chunk, emits every complete line of the concatenated text, and leaves the
final fragment in the carry buffer. -/
theorem chunkLoop_none (m : Matcher) (e : Bool) :
    ∀ (chunks : List (List Char)) (buf : List Char) (ln : Nat)
      (res : List (List Char)) (r : Nat),
      '\n' ∉ buf →
      chunkLoop m none e chunks buf ⟨ln, res, r⟩ =
        (lastD (splitNl (buf ++ chunks.flatten)) [],
         ⟨ln + (splitNl (buf ++ chunks.flatten)).dropLast.length,
          res ++ recsFrom m ln (splitNl (buf ++ chunks.flatten)).dropLast,
          r + chunks.length + 1⟩,
         e) := by
  intro chunks
  induction chunks with
  | nil =>
    intro buf ln res r hb
    rw [chunkLoop]
    have hs := splitNl_no_newline buf hb
    simp [isRunning, hs]
  | cons c rest ih =>
    intro buf ln res r _
    rw [chunkLoop]
    simp only [isRunning, if_true]
    rw [foldl_stepLine, ih _ _ _ _ (splitNl_lastD_no_newline _)]
    rw [List.flatten_cons, ← List.append_assoc,
      splitNl_chunk_dropLast (buf ++ c) rest.flatten,
      splitNl_chunk_lastD (buf ++ c) rest.flatten,
      recsFrom_append, List.length_append, List.length_cons]
    congr 1
    congr 1
    congr 1
    · omega
    · rw [List.append_assoc]
    · omega

/-- A chunk-loop entered with the stop flag already observed down exits at
once, emitting nothing and skipping the remaining chunks. -/
theorem chunkLoop_stopped (m : Matcher) (e : Bool) (chunks : List (List Char))
    (buf : List Char) (ln : Nat) (res : List (List Char)) (r t : Nat)
    (h : t ≤ r) :
    chunkLoop m (some t) e chunks buf ⟨ln, res, r⟩ = (buf, ⟨ln, res, r + 1⟩, false) := by
  have hrun : isRunning (some t) r = false := by
    simp [isRunning]; omega
  cases chunks with
  | nil => rw [chunkLoop, hrun]; simp
  | cons c rest => rw [chunkLoop, hrun]; simp

/-- A run of the chunk loop whose stop flag flips before the chunk stream
is exhausted: it processes exactly the first `t - r` chunks, emits the
complete lines found there, and exits by the flag (never by end of stream
and never by an exception), leaving the carry unflushed. -/
theorem chunkLoop_stops (m : Matcher) (e : Bool) :
    ∀ (chunks : List (List Char)) (buf : List Char) (ln : Nat)
      (res : List (List Char)) (r t : Nat),
      '\n' ∉ buf → r < t → t - r ≤ chunks.length →
      chunkLoop m (some t) e chunks buf ⟨ln, res, r⟩ =
        (lastD (splitNl (buf ++ (chunks.take (t - r)).flatten)) [],
         ⟨ln + (splitNl (buf ++ (chunks.take (t - r)).flatten)).dropLast.length,
          res ++ recsFrom m ln (splitNl (buf ++ (chunks.take (t - r)).flatten)).dropLast,
          t + 1⟩,
         false) := by
  intro chunks
  induction chunks with
  | nil =>
    intro buf ln res r t _ h1 h2
    simp at h2
    omega
  | cons c rest ih =>
    intro buf ln res r t hb h1 h2
    rw [chunkLoop]
    have hrun : isRunning (some t) r = true := by simp [isRunning]; omega
    rw [hrun]
    simp only [if_true]
    rw [foldl_stepLine]
    by_cases hlast : t = r + 1
    · subst hlast
      rw [chunkLoop_stopped m e rest _ _ _ _ _ (le_refl _)]
      have htake : (r + 1) - r = 1 := by omega
      rw [htake]
      simp only [List.take_succ_cons, List.take_zero, List.flatten_cons,
        List.flatten_nil, List.append_nil]
    · have h1' : r + 1 < t := by omega
      have h2' : t - (r + 1) ≤ rest.length := by
        simp only [List.length_cons] at h2; omega
      rw [ih _ _ _ _ _ (splitNl_lastD_no_newline _) h1' h2']
      have htake : t - r = (t - (r + 1)) + 1 := by omega
      rw [htake, List.take_succ_cons, List.flatten_cons, ← List.append_assoc,
        splitNl_chunk_dropLast (buf ++ c) _, splitNl_chunk_lastD (buf ++ c) _,
        recsFrom_append, List.length_append]
      congr 1
      congr 1
      congr 1
      · omega
      · rw [List.append_assoc]

@[simp] theorem isRunning_none (r : Nat) : isRunning none r = true := rfl

/-- The match records a full, uncancelled scan of `file` produces. -/
def fileMatches (k : Nat) (cm : Option Matcher) (file : LogFile) : List (List Char) :=
  (analyzeFile k cm none 0 file).1

theorem flushStep_none_results (m : Matcher) (buf : List Char) (ln : Nat)
    (res : List (List Char)) (r : Nat) :
    (flushStep m none buf ⟨ln, res, r⟩).results =
      res ++ recsFrom m ln (if buf = [] then [] else [buf]) := by
  unfold flushStep
  by_cases hB : buf = []
  · simp [hB]
  · simp [hB, stepLine, recsFrom_cons]

theorem flushStep_stopped_results (m : Matcher) (t : Nat) (buf : List Char)
    (ln : Nat) (res : List (List Char)) (r : Nat) (h : t ≤ r) :
    (flushStep m (some t) buf ⟨ln, res, r⟩).results = res := by
  unfold flushStep
  have hrun : isRunning (some t) r = false := by simp [isRunning]; omega
  by_cases hB : buf = []
  · simp [hB]
  · simp [hB, hrun]

theorem analyzeFile_ok_none_fst (k : Nat) (m : Matcher) (r : Nat) (s : List Char) :
    (analyzeFile k (some m) none r (.ok s)).1 = recsFrom m 0 (directLines s) := by
  simp only [analyzeFile]
  rw [chunkLoop_none m false _ _ _ _ _ (by simp)]
  simp only [List.nil_append, flatten_chunksOf]
  rw [flushStep_none_results, ← recsFrom_append]
  have : (splitNl s).dropLast ++
      (if lastD (splitNl s) [] = [] then [] else [lastD (splitNl s) []]) =
      directLines s := by
    unfold directLines
    by_cases hB : lastD (splitNl s) [] = []
    · simp [hB]
    · rw [if_neg hB, if_neg hB]
      exact dropLast_append_lastD _ (splitNl_ne_nil s) []
  rw [this]

theorem analyzeFile_err_none_fst (k : Nat) (m : Matcher) (r : Nat)
    (cs : List (List Char)) :
    (analyzeFile k (some m) none r (.errAfter cs)).1 =
      recsFrom m 0 (splitNl cs.flatten).dropLast := by
  simp only [analyzeFile]
  rw [chunkLoop_none m true _ _ _ _ _ (by simp)]
  simp

theorem analyzeFile_none_fst (k : Nat) (cm : Option Matcher) (r : Nat)
    (file : LogFile) :
    (analyzeFile k cm none r file).1 = fileMatches k cm file := by
  cases cm with
  | none => rfl
  | some m =>
    cases file with
    | ok s => rw [analyzeFile_ok_none_fst, fileMatches, analyzeFile_ok_none_fst]
    | errAfter cs => rw [analyzeFile_err_none_fst, fileMatches, analyzeFile_err_none_fst]

theorem dirLoop_none_fst (k : Nat) (cm : Option Matcher) :
    ∀ (files : List LogFile) (acc : List (List Char)) (r : Nat),
      (dirLoop k cm none files acc r).1 =
        acc ++ (files.map (fileMatches k cm)).flatten := by
  intro files
  induction files with
  | nil => intro acc r; simp [dirLoop]
  | cons f rest ih =>
    intro acc r
    rw [dirLoop]
    simp only [isRunning_none, if_true]
    rw [analyzeFile_none_fst, ih]
    simp [List.append_assoc]

/-- C6: a per-file I/O error is non-fatal: an uncancelled directory scan
always terminates in the `finished` emission (the Completed terminal, not
the error path), its result is the in-order concatenation of every listed
file's match records — the scan continues past files whose reads raise —
and a failing file contributes exactly the match records of the complete
lines it yielded before the error (an unreadable file, `errAfter []`,
contributes nothing). -/
theorem perfile_error_nonfatal (k : Nat) (m : Matcher) (files : List LogFile) :
    runThread k (some m) none (.dir files) =
      .finished ((files.map (fileMatches k (some m))).flatten) ∧
    ∀ cs : List (List Char),
      fileMatches k (some m) (.errAfter cs) =
        recsFrom m 0 (splitNl cs.flatten).dropLast := by
  constructor
  · rw [runThread, dirLoop_none_fst, List.nil_append]
  · intro cs
    rw [fileMatches, analyzeFile_err_none_fst]

/-- C7 counterexample: a stop observed mid-file during a directory scan of
two files.  With chunk size 1, matcher `Literal("")` (matches every line)
and the flag flipping at the 7th read, the scan of `"b\nc\n"` is
interrupted after emitting its first line: the thread still emits the
normal `finished` signal — there is no distinct Cancelled terminal — and
the result contains the partial match `"1: b"` from the interrupted file,
so it is not the match set of the fully-processed files only (`["1: a"]`). -/
theorem stop_counterexample :
    runThread 1 (some (.literal [])) (some 7)
        (.dir [.ok ("a\n".toList), .ok ("b\nc\n".toList)]) =
      .finished ["1: a".toList, "1: b".toList] ∧
    ["1: a".toList, "1: b".toList] ≠ ["1: a".toList] := by
  constructor
  · decide
  · decide

/-- C7 (amended): requesting stop during a directory scan makes the thread
cut the scan short — the flag is checked before starting each file, and a
stop already visible at the first per-file check yields an empty result
list — but the thread terminates by emitting the same `finished` signal
as normal completion (there is no distinct Cancelled terminal emission),
carrying the matches accumulated up to the point the stop was observed,
which can include partial matches of complete lines from a file
interrupted mid-scan, as in the concrete run of the counterexample. -/
theorem stop_emits_finished (k : Nat) (cm : Option Matcher)
    (files : List LogFile) (t : Nat) :
    (∃ res, runThread k cm (some t) (.dir files) = .finished res) ∧
    runThread k cm (some 0) (.dir files) = .finished [] ∧
    runThread 1 (some (.literal [])) (some 7)
        (.dir [.ok ("a\n".toList), .ok ("b\nc\n".toList)]) =
      .finished ["1: a".toList, "1: b".toList] := by
  refine ⟨⟨_, rfl⟩, ?_, by decide⟩
  cases files with
  | nil => rfl
  | cons f rest =>
    rw [runThread, dirLoop]
    have hrun : isRunning (some 0) 0 = false := by simp [isRunning]
    rw [hrun]
    simp

/-- C10: if the stop signal flips before a single file's chunk stream is
exhausted (at most as many flag reads as there are chunks), the
end-of-stream flush of the carry buffer is skipped: the scan emits exactly
the match records of the complete (newline-terminated) lines among the
chunks read before the stop was observed, and never a final unterminated
fragment — even one that was fully read into the carry and matches the
pattern — while the matches from complete lines are still returned. -/
theorem stop_skips_flush (k : Nat) (m : Matcher) (s : List Char) (t : Nat)
    (ht : t ≤ (chunksOf k s).length) :
    runThread k (some m) (some t) (.file (.ok s)) =
      .finished (recsFrom m 0
        (splitNl ((chunksOf k s).take t).flatten).dropLast) := by
  rw [runThread]
  congr 1
  rcases Nat.eq_zero_or_pos t with h0 | hpos
  · subst h0
    simp only [analyzeFile]
    rw [chunkLoop_stopped m false _ _ _ _ _ _ (Nat.zero_le 0)]
    simp [flushStep, splitNl_nil]
  · simp only [analyzeFile]
    rw [chunkLoop_stops m false _ _ _ _ _ _ (by simp) hpos (by simpa using ht)]
    rw [flushStep_stopped_results m t _ _ _ _ (by omega)]
    simp

theorem stop_skips_flush_witness :
    4 ≤ (chunksOf 1 ("ab\nc".toList)).length ∧
    runThread 1 (some (.literal [])) (some 4) (.file (.ok ("ab\nc".toList))) =
      .finished (recsFrom (.literal []) 0
        (splitNl ((chunksOf 1 ("ab\nc".toList)).take 4).flatten).dropLast) :=
  ⟨by decide, stop_skips_flush 1 _ _ 4 (by decide)⟩

/-- Outcome of a click on Search (`LogAnalyticsScreen._on_search_clicked`,
lines 311–338): one of the two immediate error statuses (no thread is
created on these paths, so the job stays Idle), or the construction and
start of the analyzer thread. -/
inductive ClickOutcome : Type
  | errorEmptyInput
  | errorPathMissing
  | started
deriving Repr, DecidableEq

/-- Model of `_on_search_clicked`: `if not file_path or not pattern:` show the
empty-input error and return; `if not os.path.exists(file_path):` show
the path error and return; otherwise construct and start
`LogAnalyzerThread`.  `pathIsPresent` models `os.path.exists(file_path)`.
The pattern's content — in particular whether it compiles as a regex —
is never inspected on this path. -/
def onSearchClicked (path pattern : List Char) (pathIsPresent : Bool) : ClickOutcome :=
  if path = [] ∨ pattern = [] then .errorEmptyInput
  else if !pathIsPresent then .errorPathMissing
  else .started

/-- C9: the click handler fails immediately — no analyzer thread is
spawned, so the job stays Idle — with the empty-input error
(`EmptyInputError`) whenever the pattern or the path is the empty string,
and with the path-not-found error (`PathNotFoundError`) whenever path and
pattern are non-empty but the path does not exist (the emptiness check
runs first, so an empty, hence non-existing, path reports empty input). -/
theorem start_validation (path pattern : List Char) (pathIsPresent : Bool) :
    ((path = [] ∨ pattern = []) →
      onSearchClicked path pattern pathIsPresent = .errorEmptyInput) ∧
    (path ≠ [] → pattern ≠ [] →
      onSearchClicked path pattern false = .errorPathMissing) := by
  constructor
  · intro h
    simp [onSearchClicked, h]
  · intro h1 h2
    simp [onSearchClicked, h1, h2]

theorem start_validation_witness :
    (("".toList = ([] : List Char) ∨ "err".toList = ([] : List Char)) ∧
      onSearchClicked "".toList "err".toList true = .errorEmptyInput) ∧
    ("/logs".toList ≠ ([] : List Char) ∧ "err".toList ≠ ([] : List Char) ∧
      onSearchClicked "/logs".toList "err".toList false = .errorPathMissing) :=
  ⟨⟨Or.inl (by decide),
    (start_validation "".toList "err".toList true).1 (Or.inl (by decide))⟩,
   ⟨by decide, by decide,
    (start_validation "/logs".toList "err".toList false).2 (by decide) (by decide)⟩⟩

/-- C2 counterexample: the pattern `"("` does not compile as a regular
expression (Python `re.compile("(")` raises `re.error`), yet the click
handler — whose only checks are emptiness and path existence — starts the
analyzer thread: the job does not fail at start, no error is surfaced
there, and a scan is attempted. -/
theorem invalid_pattern_counterexample :
    onSearchClicked "/var/log".toList "(".toList true = .started := by
  decide

theorem dirLoop_noCompile_fst (k : Nat) (stopAt : Option Nat) :
    ∀ (files : List LogFile) (acc : List (List Char)) (r : Nat),
      (dirLoop k none stopAt files acc r).1 = acc := by
  intro files
  induction files with
  | nil => intro acc r; rfl
  | cons f rest ih =>
    intro acc r
    rw [dirLoop]
    cases hrun : isRunning stopAt r with
    | false => simp
    | true =>
      simp only [hrun, if_true, analyzeFile]
      rw [ih]
      simp

/-- C2 (amended): a non-compiling regex pattern is not rejected at job
start: for any non-empty pattern and existing path the handler starts the
thread, and the `re.compile` failure is raised only inside
`_analyze_file`, where the per-file `except` swallows it, so every file
contributes zero matches and the thread still emits the normal `finished`
signal with an empty result list (Completed, not Failed) — for
single-file and directory scans alike, regardless of any stop request. -/
theorem invalid_pattern_swallowed (path pattern : List Char)
    (hpath : path ≠ []) (hpat : pattern ≠ []) (k : Nat)
    (stopAt : Option Nat) (f : LogFile) (files : List LogFile) :
    onSearchClicked path pattern true = .started ∧
    runThread k none stopAt (.file f) = .finished [] ∧
    runThread k none stopAt (.dir files) = .finished [] := by
  refine ⟨?_, rfl, ?_⟩
  · simp [onSearchClicked, hpath, hpat]
  · rw [runThread, dirLoop_noCompile_fst]

theorem invalid_pattern_swallowed_witness :
    "/var/log".toList ≠ ([] : List Char) ∧ "(".toList ≠ ([] : List Char) ∧
    (onSearchClicked "/var/log".toList "(".toList true = .started ∧
      runThread 4 none none (.file (.ok ("x\n".toList))) = .finished [] ∧
      runThread 4 none none (.dir [.ok ("x\n".toList)]) = .finished []) :=
  ⟨by decide, by decide,
   invalid_pattern_swallowed _ _ (by decide) (by decide) 4 none _ _⟩

/-- Does `name` match the glob pattern `*.ext`: the literal tail `ext`
after `*` must end the name (fnmatch semantics, case-sensitive). -/
def endsWithL (name ext : List Char) : Bool :=
  startsWithL ext.reverse name.reverse

/-- The directory enumeration of `run` (line 56):
`log_files = list(log_dir.glob("*.log")) + list(log_dir.glob("*.txt"))` —
the immediate entries whose names end in `.log`, in directory-enumeration
order, followed by those ending in `.txt`.  `entries` is the directory's
immediate-children name list in the order the underlying scandir-based
glob yields them; glob patterns without `**` do not descend into
subdirectories. -/
def listLogFiles (entries : List (List Char)) : List (List Char) :=
  entries.filter (fun n => endsWithL n (".log".toList)) ++
    entries.filter (fun n => endsWithL n (".txt".toList))

/-- Lexicographic (code-point) order on names, as a Bool-valued `≤`. -/
def lexLe : List Char → List Char → Bool
  | [], _ => true
  | _ :: _, [] => false
  | a :: as, b :: bs => if a = b then lexLe as bs else decide (a < b)

/-- Is a name sequence sorted in (non-strict) lexical order? -/
def lexSorted : List (List Char) → Bool
  | [] => true
  | [_] => true
  | a :: b :: rest => lexLe a b && lexSorted (b :: rest)

/-- C3 counterexample: a directory whose enumeration holds `a.txt` and
`z.log`.  The source concatenates all `*.log` matches before all `*.txt`
matches, so the visit order is `[z.log, a.txt]` — not the stable lexical
path order the claim asserts, since `a.txt` sorts before `z.log`. -/
theorem dir_order_counterexample :
    listLogFiles ["a.txt".toList, "z.log".toList] =
      ["z.log".toList, "a.txt".toList] ∧
    lexSorted (listLogFiles ["a.txt".toList, "z.log".toList]) = false := by
  constructor
  · decide
  · decide

/-- Model of the directory branch of `run` seen from the filesystem: glob the entries,
then scan the globbed names in visit order, `toFile` giving each name's
contents. -/
def runDirListing (k : Nat) (cm : Option Matcher) (stopAt : Option Nat)
    (entries : List (List Char)) (toFile : List Char → LogFile) : Outcome :=
  runThread k cm stopAt (.dir ((listLogFiles entries).map toFile))

/-- C3 (amended): the directory scan enumerates exactly the immediate
entries matching `*.log` or `*.txt` (glob patterns without `**`, hence no
recursion into subdirectories), but visits all `*.log` files first and
all `*.txt` files second, each group in the underlying directory
enumeration order — not in overall lexical path order — and an
uncancelled scan concatenates the per-file match records in exactly that
visit order. -/
theorem dir_enumeration (k : Nat) (m : Matcher) (entries : List (List Char))
    (toFile : List Char → LogFile) :
    (∀ n, n ∈ listLogFiles entries ↔
      n ∈ entries ∧ (endsWithL n (".log".toList) = true ∨
        endsWithL n (".txt".toList) = true)) ∧
    runDirListing k (some m) none entries toFile =
      .finished (((listLogFiles entries).map
        (fun n => fileMatches k (some m) (toFile n))).flatten) := by
  constructor
  · intro n
    simp only [listLogFiles, List.mem_append, List.mem_filter]
    constructor
    · rintro (⟨h1, h2⟩ | ⟨h1, h2⟩)
      · exact ⟨h1, Or.inl h2⟩
      · exact ⟨h1, Or.inr h2⟩
    · rintro ⟨h1, h2 | h2⟩
      · exact Or.inl ⟨h1, h2⟩
      · exact Or.inr ⟨h1, h2⟩
  · rw [runDirListing, runThread, dirLoop_none_fst, List.nil_append, List.map_map]
    rfl

/-- What `_on_analysis_finished` (lines 358–380) surfaces: the displayed
records (`results[:1000]`), the optional `"... and N more matches"`
remainder count, and the match count reported in the status line
(`len(results)`); an empty result list takes the `"No matches found"`
branch. -/
structure DisplayOut : Type where
  shown : List (List Char)
  moreCount : Option Nat
  statusCount : Nat
deriving Repr, DecidableEq

/-- The display cap: `results[:1000]` in the source. -/
def maxDisplay : Nat := 1000

def onAnalysisFinished (results : List (List Char)) : DisplayOut :=
  if results = [] then ⟨[], none, 0⟩
  else
    ⟨results.take maxDisplay,
     if results.length > maxDisplay then some (results.length - maxDisplay) else none,
     results.length⟩

/-- C8: for every completed scan with `R` matches, the displayed sequence
contains exactly `min R 1000` records; the remainder count `R − 1000` is
surfaced exactly when `R` exceeds 1000; the status line reports the full
`R`, unaffected by the cap; and a scan with 1500 matches surfaces exactly
1000 records plus the remainder count 500. -/
theorem display_cap (results : List (List Char)) :
    (onAnalysisFinished results).shown.length = min results.length maxDisplay ∧
    (onAnalysisFinished results).moreCount =
      (if results.length > maxDisplay then some (results.length - maxDisplay)
        else none) ∧
    (onAnalysisFinished results).statusCount = results.length ∧
    ((onAnalysisFinished (List.replicate 1500 ['x'])).shown.length = 1000 ∧
      (onAnalysisFinished (List.replicate 1500 ['x'])).moreCount = some 500 ∧
      (onAnalysisFinished (List.replicate 1500 ['x'])).statusCount = 1500) := by
  have hrep : (List.replicate 1500 (['x'] : List Char)) ≠ [] := by
    intro h
    have hlen : (List.replicate 1500 (['x'] : List Char)).length = 0 := by
      rw [h]; rfl
    rw [List.length_replicate] at hlen
    exact absurd hlen (by decide)
  refine ⟨?_, ?_, ?_, ?_, ?_, ?_⟩
  · by_cases h : results = []
    · subst h; simp [onAnalysisFinished]
    · simp only [onAnalysisFinished, if_neg h]
      show (results.take maxDisplay).length = min results.length maxDisplay
      rw [List.length_take, Nat.min_comm]
  · by_cases h : results = []
    · subst h; simp [onAnalysisFinished]
    · simp only [onAnalysisFinished, if_neg h]
  · by_cases h : results = []
    · subst h; simp [onAnalysisFinished]
    · simp only [onAnalysisFinished, if_neg h]
  · simp only [onAnalysisFinished, if_neg hrep]
    show ((List.replicate 1500 (['x'] : List Char)).take maxDisplay).length = 1000
    rw [List.length_take, List.length_replicate]
    decide
  · simp only [onAnalysisFinished, if_neg hrep]
    show (if (List.replicate 1500 (['x'] : List Char)).length > maxDisplay
        then some ((List.replicate 1500 (['x'] : List Char)).length - maxDisplay)
        else none) = some 500
    rw [List.length_replicate]
    decide
  · simp only [onAnalysisFinished, if_neg hrep]
    show (List.replicate 1500 (['x'] : List Char)).length = 1500
    rw [List.length_replicate]

end LogScan
